import Mathlib

/-!
Verification of the query-safety gate (`src/sql_guard.py`) and the
schema-retrieval layer (`src/rag.py`) of the Enterprise AI Analytics
Copilot.  Python strings are embedded as `String`/`List Char`; the
regular-expression fragments actually used by the code (`\b` word
boundaries, `\s` whitespace, `\s+` gaps, case-insensitive literal
words) are embedded as explicit scanners over `List Char`.  Character
classes follow the ASCII semantics of the patterns in the source
(`\s` = space, tab, newline, carriage return, vertical tab, form feed;
`\w` = letters, digits, underscore).
-/

/-- ASCII model of Python's `\s` class and of the characters removed by
`str.strip()`. -/
def isPySpace (c : Char) : Bool :=
  c == ' ' || c == '\t' || c == '\n' || c == '\r' || c == '\x0b' || c == '\x0c'

/-- ASCII model of Python's `\w` class: the characters that count as
word characters for the `\b` boundary assertion. -/
def isWordChar (c : Char) : Bool :=
  c.isAlphanum || c == '_'

/-- Python `str.lstrip()` on a character list. -/
def lstripL (s : List Char) : List Char :=
  s.dropWhile isPySpace

/-- Python `str.rstrip()` on a character list. -/
def rstripL (s : List Char) : List Char :=
  (s.reverse.dropWhile isPySpace).reverse

/-- Python `str.strip()` on a character list. -/
def pstrip (s : List Char) : List Char :=
  rstripL (lstripL s)

/-- Case-insensitive match of one literal pattern word (given in upper
case, as in `DANGEROUS_KEYWORDS`) against a prefix of the text;
returns the rest of the text after the word. -/
def matchWord : List Char → List Char → Option (List Char)
  | [], s => some s
  | _ :: _, [] => none
  | k :: ks, c :: cs => if c.toUpper == k then matchWord ks cs else none

/-- The regex fragment `\s+`: at least one whitespace character,
consumed greedily.  (The following pattern token is always a word, so
greedy consumption is equivalent to the regex semantics.) -/
def matchSpaces1 : List Char → Option (List Char)
  | [] => none
  | c :: cs => if isPySpace c then some (cs.dropWhile isPySpace) else none

/-- Match a keyword pattern — a list of literal words separated by
`\s+` (e.g. `CREATE\s+TABLE` is `[CREATE, TABLE]`) — against a prefix
of the text. -/
def matchPat : List (List Char) → List Char → Option (List Char)
  | [], s => some s
  | [w], s => matchWord w s
  | w :: ws, s =>
    match matchWord w s with
    | none => none
    | some s1 =>
      match matchSpaces1 s1 with
      | none => none
      | some s2 => matchPat ws s2

/-- The trailing `\b` assertion after a pattern that ends in a word
character: the next text character, if any, is not a word character. -/
def boundaryAfter : List Char → Bool
  | [] => true
  | c :: _ => !isWordChar c

/-- Whole pattern (with both `\b` boundaries on the right side resolved)
matches at the start of the text. -/
def foundPat (ws : List (List Char)) (s : List Char) : Bool :=
  match matchPat ws s with
  | some r => boundaryAfter r
  | none => false

/-- Model of `re.search` for a `\b…\b`-delimited keyword pattern: scan every
position; `prevOk` records whether the previous character (or the
string start) satisfies the leading `\b` assertion. -/
def searchPat (ws : List (List Char)) : Bool → List Char → Bool
  | _, [] => false
  | prevOk, c :: cs =>
    (prevOk && foundPat ws (c :: cs)) || searchPat ws (!isWordChar c) cs

/-- The forbidden-operation patterns of `SQLGuard.DANGEROUS_KEYWORDS`,
in source order; each entry lists the literal words of one regex
(`\bDROP\b`, …, `\bCREATE\s+TABLE\b`). -/
def DANGEROUS_KEYWORDS : List (List String) :=
  [["DROP"], ["DELETE"], ["UPDATE"], ["INSERT"], ["ALTER"], ["TRUNCATE"],
   ["CREATE", "TABLE"], ["GRANT"], ["REVOKE"]]

/-- The words of a keyword pattern as character lists. -/
def keywordWords (p : List String) : List (List Char) :=
  p.map String.data

/-- Case-insensitive whole-word search for one forbidden-operation
pattern (`re.search(dangerous_keyword, sql_query, re.IGNORECASE)`). -/
def searchKeyword (p : List String) (q : List Char) : Bool :=
  searchPat (keywordWords p) true q

/-- The display name the source computes from the regex by
`dangerous_keyword.replace(r'\b', '').replace(r'\s+', ' ')`:
the words joined by single spaces. -/
def keywordName (p : List String) : String :=
  String.intercalate " " p

/-- The first forbidden-operation pattern (in list order) that matches
the query, returned as its display name — the keyword loop of
`SQLGuard.is_safe_query`. -/
def findDangerous (q : List Char) : Option String :=
  (DANGEROUS_KEYWORDS.find? fun p => searchKeyword p q).map keywordName

/-- Model of rule 3: `re.match(r'^\s*SELECT\b', sql_query, re.IGNORECASE)`
returns a match. -/
def startsWithSelect (q : List Char) : Bool :=
  match matchWord "SELECT".data (q.dropWhile isPySpace) with
  | some r => boundaryAfter r
  | none => false

/-- The guard `SQLGuard.is_safe_query`: strip, reject empty, reject forbidden
keywords (first match wins), reject non-`SELECT`, otherwise safe.
Returns the `(is_safe, message)` pair of the source. -/
def is_safe_query (sql_query : String) : Bool × String :=
  if pstrip sql_query.data = [] then (false, "Query cannot be empty")
  else
    match findDangerous (pstrip sql_query.data) with
    | some keyword => (false, "Query contains forbidden operation: " ++ keyword)
    | none =>
      if startsWithSelect (pstrip sql_query.data) then
        (true, "Query is safe to execute")
      else (false, "Only SELECT queries are allowed")

/-- One pass of `re.sub(r'\s+', ' ', s)`: each maximal whitespace run
becomes a single space; `inRun` records whether the previous character
belonged to a run already replaced. -/
def squeezeGo : Bool → List Char → List Char
  | _, [] => []
  | inRun, c :: cs =>
    if isPySpace c then
      if inRun then squeezeGo true cs else ' ' :: squeezeGo true cs
    else c :: squeezeGo false cs

/-- The sanitizer `SQLGuard.sanitize_query`: collapse whitespace runs to single
spaces, then strip. -/
def sanitize_query (sql_query : String) : String :=
  ⟨pstrip (squeezeGo false sql_query.data)⟩

/-! ## Schema RAG (`src/rag.py`) -/

/-- If `sep` is a prefix of the text, the text after it. -/
def dropSub? : List Char → List Char → Option (List Char)
  | [], s => some s
  | _ :: _, [] => none
  | k :: ks, c :: cs => if c == k then dropSub? ks cs else none

/-- Python `str.split(sep)` worker for a non-empty separator: cut the text at
every leftmost non-overlapping occurrence of `sep`.  `fuel` bounds the
recursion; it is initialised to the text length, which always
suffices, so the fuel-exhausted branch is unreachable. -/
def pySplitGo (sep : List Char) : Nat → List Char → List Char → List (List Char)
  | _, acc, [] => [acc.reverse]
  | 0, acc, s => [acc.reverse ++ s]
  | fuel + 1, acc, c :: cs =>
    match dropSub? sep (c :: cs) with
    | some rest => acc.reverse :: pySplitGo sep fuel [] rest
    | none => pySplitGo sep fuel (c :: acc) cs

/-- Python `str.split(sep)` on character lists (`sep` non-empty in
every use below; an empty separator returns the text unsplit). -/
def pySplit (sep s : List Char) : List (List Char) :=
  match sep with
  | [] => [s]
  | k :: ks => pySplitGo (k :: ks) s.length [] s

/-- Python `s.replace(sub, '')`: concatenation of the split parts. -/
def pyReplaceEmpty (sub s : List Char) : List Char :=
  (pySplit sub s).flatten

/-- One schema document, as assembled by
`SchemaRAG.load_schema_from_file`: the id, the document text and the
`"table"` metadata value (`"type"` is the constant
`"table_definition"` for every document). -/
structure SchemaDoc where
  id : String
  document : String
  table : String
deriving DecidableEq, Repr

/-- The table-name extraction of `load_schema_from_file`:
`block.split('\n')[0].replace('CREATE TABLE', '').strip()`, then
`.split('(')[0].strip()`. -/
def extractTableName (block : List Char) : List Char :=
  let firstLine := block.takeWhile (fun c => c != '\n')
  let table_match := pstrip (pyReplaceEmpty "CREATE TABLE".data firstLine)
  pstrip (table_match.takeWhile (fun c => c != '('))

/-- The parsing loop of `load_schema_from_file`: split the schema text
on `"CREATE TABLE"`, skip the first fragment, and turn every remaining
segment `i` into a document with id `f"table_{table_name}_{i}"`. -/
def parseTables (schema_content : String) : List SchemaDoc :=
  (((pySplit "CREATE TABLE".data schema_content.data).drop 1).enum).map fun p =>
    let block := "CREATE TABLE".data ++ p.2
    let name : String := ⟨extractTableName block⟩
    { id := "table_" ++ name ++ "_" ++ toString p.1
      document := ⟨block⟩
      table := name }

/-- The loader `SchemaRAG.load_schema_from_file`, file reading made explicit: the
input is `none` when the file does not exist (the only error path —
`raise FileNotFoundError`) and `some content` otherwise.  The result
is the list of documents added to the collection; when it is empty the
`if documents:` guard skips the `collection.add` call, so the
collection is left unchanged and no error is raised. -/
def load_schema_from_file (file : Option String) : Except String (List SchemaDoc) :=
  match file with
  | none => Except.error "FileNotFoundError"
  | some schema_content => Except.ok (parseTables schema_content)

/-- One entry of the list returned by
`SchemaRAG.retrieve_relevant_schema` (the opaque similarity distance
is omitted). -/
structure RetrievedItem where
  content : String
  table : String
deriving DecidableEq, Repr

/-- Python `x or d` on a non-negative integer `x`. -/
def pyOrNat (x d : Nat) : Nat :=
  if x = 0 then d else x

/-- Modelled behaviour of `chromadb` `Collection.query` for one query
text: given the collection's documents ranked by ascending distance to
the query (an arbitrary function here), it returns the `n_results`
nearest documents, or all of them when fewer than `n_results` exist. -/
def collection_query (ranked : List SchemaDoc) (n_results : Nat) : List SchemaDoc :=
  ranked.take n_results

/-- The retrieval `SchemaRAG.retrieve_relevant_schema`: ask the collection for
`min(n_results, len(ids) or 1)` nearest documents and repackage them.
`docs` is the collection's document list and `rank query docs` the
similarity ranking the vector store produces for `query`. -/
def retrieve_relevant_schema (docs : List SchemaDoc)
    (rank : String → List SchemaDoc → List SchemaDoc)
    (query : String) (n_results : Nat) : List RetrievedItem :=
  (collection_query (rank query docs) (min n_results (pyOrNat docs.length 1))).map
    fun d => { content := d.document, table := d.table }

/-! ## Pattern wellformedness and whitespace lemmas

The forbidden-operation patterns are non-empty lists of non-empty
words made of word characters; stripping a query therefore never
creates or destroys a whole-word match. -/

/-- A pattern word is non-empty and consists of word characters. -/
def wordOK (w : List Char) : Bool :=
  !w.isEmpty && w.all isWordChar

/-- A pattern is a non-empty list of wellformed words. -/
def patOK (ws : List (List Char)) : Bool :=
  !ws.isEmpty && ws.all wordOK

/-- The candidate is rejected by rule 2: some forbidden-operation
pattern matches it as a case-insensitive whole word. -/
def hasForbidden (q : List Char) : Prop :=
  ∃ p ∈ DANGEROUS_KEYWORDS, searchKeyword p q = true

instance decHasForbidden (q : List Char) : Decidable (hasForbidden q) :=
  inferInstanceAs (Decidable (∃ p ∈ DANGEROUS_KEYWORDS, searchKeyword p q = true))

theorem dangerous_patOK : DANGEROUS_KEYWORDS.all (fun p => patOK (keywordWords p)) = true := by
  decide

theorem pySpace_toUpper {c : Char} (h : isPySpace c = true) : c.toUpper = c := by
  simp only [isPySpace, Bool.or_eq_true, beq_iff_eq] at h
  rcases h with ((((h | h) | h) | h) | h) | h <;> subst h <;> decide

theorem pySpace_not_word {c : Char} (h : isPySpace c = true) : isWordChar c = false := by
  simp only [isPySpace, Bool.or_eq_true, beq_iff_eq] at h
  rcases h with ((((h | h) | h) | h) | h) | h <;> subst h <;> decide

theorem matchWord_cons_space {k : Char} (ks : List Char) (hk : isWordChar k = true)
    {c : Char} (hc : isPySpace c = true) (cs : List Char) :
    matchWord (k :: ks) (c :: cs) = none := by
  have hne : (c.toUpper == k) = false := by
    refine beq_eq_false_iff_ne.mpr fun he => ?_
    rw [pySpace_toUpper hc] at he
    subst he
    rw [pySpace_not_word hc] at hk
    exact Bool.false_ne_true hk
  simp [matchWord, hne]

theorem matchWord_nil {w : List Char} (hw : wordOK w = true) : matchWord w [] = none := by
  cases w with
  | nil => simp [wordOK] at hw
  | cons k ks => rfl

theorem wordOK_head {k : Char} {ks : List Char} (hw : wordOK (k :: ks) = true) :
    isWordChar k = true := by
  simp only [wordOK, List.isEmpty_cons, Bool.not_false, Bool.true_and, List.all_cons,
    Bool.and_eq_true] at hw
  exact hw.1

theorem matchPat_cons_space {ws : List (List Char)} (hws : patOK ws = true)
    {c : Char} (hc : isPySpace c = true) (cs : List Char) :
    matchPat ws (c :: cs) = none := by
  cases ws with
  | nil => simp [patOK] at hws
  | cons w tail =>
    have hw : wordOK w = true := by
      simp only [patOK, List.all_cons, Bool.and_eq_true] at hws
      exact hws.2.1
    obtain ⟨k, ks, rfl⟩ : ∃ k ks, w = k :: ks := by
      cases w with
      | nil => simp [wordOK] at hw
      | cons k ks => exact ⟨k, ks, rfl⟩
    cases tail with
    | nil => simp [matchPat, matchWord_cons_space ks (wordOK_head hw) hc cs]
    | cons w₂ rest => simp [matchPat, matchWord_cons_space ks (wordOK_head hw) hc cs]

theorem matchPat_nil {ws : List (List Char)} (hws : patOK ws = true) :
    matchPat ws [] = none := by
  cases ws with
  | nil => simp [patOK] at hws
  | cons w tail =>
    have hw : wordOK w = true := by
      simp only [patOK, List.all_cons, Bool.and_eq_true] at hws
      exact hws.2.1
    cases tail with
    | nil => simp [matchPat, matchWord_nil hw]
    | cons w₂ rest => simp [matchPat, matchWord_nil hw]

/-- Scanning an all-whitespace text never finds a keyword. -/
theorem searchPat_all_space {ws : List (List Char)} (hws : patOK ws = true) :
    ∀ t : List Char, (∀ c ∈ t, isPySpace c = true) → ∀ b, searchPat ws b t = false := by
  intro t
  induction t with
  | nil => intro _ b; rfl
  | cons c cs ih =>
    intro ht b
    have hc : isPySpace c = true := ht c (List.mem_cons_self c cs)
    simp only [searchPat, foundPat, matchPat_cons_space hws hc cs, Bool.and_false,
      Bool.false_or]
    exact ih (fun d hd => ht d (List.mem_cons_of_mem c hd)) _

theorem matchWord_append {t : List Char} (ht : ∀ c ∈ t, isPySpace c = true) :
    ∀ w : List Char, w.all isWordChar = true →
      ∀ s, matchWord w (s ++ t) = (matchWord w s).map (· ++ t) := by
  intro w
  induction w with
  | nil => intro _ s; rfl
  | cons k ks ih =>
    intro hw s
    rw [List.all_cons, Bool.and_eq_true] at hw
    obtain ⟨hk, hks⟩ := hw
    cases s with
    | nil =>
      simp only [List.nil_append]
      cases t with
      | nil => rfl
      | cons d t' =>
        rw [matchWord_cons_space ks hk (ht d (List.mem_cons_self d t')) t']
        rfl
    | cons c cs =>
      simp only [List.cons_append, matchWord]
      cases h : c.toUpper == k with
      | false => simp
      | true => simp [ih hks cs]

theorem boundaryAfter_append {t : List Char} (ht : ∀ c ∈ t, isPySpace c = true) :
    ∀ r, boundaryAfter (r ++ t) = boundaryAfter r := by
  intro r
  cases r with
  | nil =>
    cases t with
    | nil => rfl
    | cons d t' =>
      simp [boundaryAfter, pySpace_not_word (ht d (List.mem_cons_self d t'))]
  | cons c r' => rfl

theorem dropWhile_space_all {t : List Char} (ht : ∀ c ∈ t, isPySpace c = true) :
    t.dropWhile isPySpace = [] := by
  induction t with
  | nil => rfl
  | cons c cs ih =>
    have hc := ht c (List.mem_cons_self c cs)
    simp [List.dropWhile_cons, hc, ih fun d hd => ht d (List.mem_cons_of_mem c hd)]

theorem foundPat_cons₂ (w w₂ : List Char) (rest : List (List Char)) (x : List Char) :
    foundPat (w :: w₂ :: rest) x =
      (match matchWord w x with
       | none => false
       | some r =>
         match matchSpaces1 r with
         | none => false
         | some r2 => foundPat (w₂ :: rest) r2) := by
  cases hm : matchWord w x with
  | none => simp [foundPat, matchPat, hm]
  | some r =>
    cases hs : matchSpaces1 r with
    | none => simp [foundPat, matchPat, hm, hs]
    | some r2 => simp [foundPat, matchPat, hm, hs]

theorem foundPat_append {t : List Char} (ht : ∀ c ∈ t, isPySpace c = true) :
    ∀ ws : List (List Char), ws.all wordOK = true →
      ∀ s, foundPat ws (s ++ t) = foundPat ws s := by
  intro ws
  induction ws with
  | nil =>
    intro _ s
    simp only [foundPat, matchPat]
    exact boundaryAfter_append ht s
  | cons w tail ih =>
    intro hws s
    rw [List.all_cons, Bool.and_eq_true] at hws
    obtain ⟨hw, htail⟩ := hws
    have hwall : w.all isWordChar = true := by
      simp only [wordOK, Bool.and_eq_true] at hw
      exact hw.2
    cases tail with
    | nil =>
      simp only [foundPat, matchPat]
      rw [matchWord_append ht w hwall s]
      cases hm : matchWord w s with
      | none => rfl
      | some r => exact boundaryAfter_append ht r
    | cons w₂ rest =>
      have hpat : patOK (w₂ :: rest) = true := by
        simp [patOK, htail]
      rw [foundPat_cons₂, foundPat_cons₂, matchWord_append ht w hwall s]
      cases hm : matchWord w s with
      | none => rfl
      | some r =>
        simp only [Option.map_some']
        cases r with
        | nil =>
          cases t with
          | nil => rfl
          | cons d t' =>
            have hd : isPySpace d = true := ht d (List.mem_cons_self d t')
            have ht' : t'.dropWhile isPySpace = [] :=
              dropWhile_space_all fun c hc => ht c (List.mem_cons_of_mem d hc)
            simp [matchSpaces1, hd, ht', foundPat, matchPat_nil hpat]
        | cons c cs' =>
          cases hc : isPySpace c with
          | false => simp [matchSpaces1, hc]
          | true =>
            simp only [List.cons_append, matchSpaces1, hc, if_true]
            cases hu : cs'.dropWhile isPySpace with
            | nil =>
              rw [List.dropWhile_append]
              simp [hu, dropWhile_space_all ht]
            | cons x xs =>
              rw [List.dropWhile_append]
              simp only [hu, List.isEmpty_cons, Bool.false_eq_true, if_false]
              exact ih htail (x :: xs)

theorem searchPat_append {ws : List (List Char)} (hws : patOK ws = true)
    {t : List Char} (ht : ∀ c ∈ t, isPySpace c = true) :
    ∀ s b, searchPat ws b (s ++ t) = searchPat ws b s := by
  have hall : ws.all wordOK = true := by
    simp only [patOK, Bool.and_eq_true] at hws
    exact hws.2
  intro s
  induction s with
  | nil =>
    intro b
    rw [List.nil_append, searchPat_all_space hws t ht b]
    rfl
  | cons c cs ih =>
    intro b
    simp only [List.cons_append, searchPat, List.append_eq]
    rw [← List.cons_append c cs t, foundPat_append ht ws hall (c :: cs), ih]

theorem searchPat_lstrip {ws : List (List Char)} (hws : patOK ws = true) :
    ∀ s, searchPat ws true (s.dropWhile isPySpace) = searchPat ws true s := by
  intro s
  induction s with
  | nil => rfl
  | cons c cs ih =>
    cases hc : isPySpace c with
    | false => simp [List.dropWhile_cons, hc]
    | true =>
      rw [List.dropWhile_cons]
      simp only [hc, if_true]
      rw [ih]
      have hfp : foundPat ws (c :: cs) = false := by
        simp [foundPat, matchPat_cons_space hws hc cs]
      simp [searchPat, hfp, pySpace_not_word hc]

theorem rstrip_decomp (l : List Char) :
    l = rstripL l ++ (l.reverse.takeWhile isPySpace).reverse
    ∧ ∀ c ∈ (l.reverse.takeWhile isPySpace).reverse, isPySpace c = true := by
  constructor
  · conv_rhs => rw [rstripL]
    rw [← List.reverse_append, List.takeWhile_append_dropWhile, List.reverse_reverse]
  · intro c hc
    rw [List.mem_reverse] at hc
    exact List.mem_takeWhile_imp hc

/-- Stripping a candidate changes no whole-word keyword match: the
guard's rule 2 sees exactly the matches present in the raw string. -/
theorem searchKeyword_pstrip {p : List String} (hp : p ∈ DANGEROUS_KEYWORDS) (s : List Char) :
    searchKeyword p (pstrip s) = searchKeyword p s := by
  have hOK : patOK (keywordWords p) = true := List.all_eq_true.mp dangerous_patOK p hp
  obtain ⟨hdec, hsp⟩ := rstrip_decomp (s.dropWhile isPySpace)
  show searchPat (keywordWords p) true (rstripL (lstripL s)) = searchPat (keywordWords p) true s
  calc searchPat (keywordWords p) true (rstripL (lstripL s))
      = searchPat (keywordWords p) true
          (rstripL (s.dropWhile isPySpace)
            ++ ((s.dropWhile isPySpace).reverse.takeWhile isPySpace).reverse) :=
        (searchPat_append hOK hsp (rstripL (s.dropWhile isPySpace)) true).symm
    _ = searchPat (keywordWords p) true (s.dropWhile isPySpace) := by rw [← hdec]
    _ = searchPat (keywordWords p) true s := searchPat_lstrip hOK s

/-! ## Sanitizer lemmas

`sanitize_query` output is characterised by: every whitespace character
is a plain space (`okChar`), no two adjacent whitespace characters
(`noDouble`), and no whitespace at either end. -/

/-- Every whitespace character in a sanitized string is `' '`. -/
def okChar (c : Char) : Bool :=
  !isPySpace c || c == ' '

/-- No two adjacent whitespace characters. -/
def noDouble : List Char → Bool
  | [] => true
  | [_] => true
  | a :: b :: r => !(isPySpace a && isPySpace b) && noDouble (b :: r)

/-- The first character, if any, is not whitespace. -/
def headNotSpace : List Char → Bool
  | [] => true
  | c :: _ => !isPySpace c

theorem squeezeGo_space_t {c : Char} (hc : isPySpace c = true) (cs : List Char) :
    squeezeGo true (c :: cs) = squeezeGo true cs := by
  simp [squeezeGo, hc]

theorem squeezeGo_space_f {c : Char} (hc : isPySpace c = true) (cs : List Char) :
    squeezeGo false (c :: cs) = ' ' :: squeezeGo true cs := by
  simp [squeezeGo, hc]

theorem squeezeGo_nonspace {c : Char} (hc : isPySpace c = false) (b : Bool) (cs : List Char) :
    squeezeGo b (c :: cs) = c :: squeezeGo false cs := by
  simp [squeezeGo, hc]

theorem squeezeGo_all_ok : ∀ (s : List Char) (b : Bool), (squeezeGo b s).all okChar = true := by
  intro s
  induction s with
  | nil => intro b; rfl
  | cons c cs ih =>
    intro b
    cases hc : isPySpace c with
    | true =>
      cases b with
      | true =>
        rw [squeezeGo_space_t hc]
        exact ih true
      | false =>
        rw [squeezeGo_space_f hc, List.all_cons]
        simp [ih true, okChar, isPySpace]
    | false =>
      rw [squeezeGo_nonspace hc, List.all_cons]
      simp [ih false, okChar, hc]

theorem squeezeGo_headNotSpace : ∀ s : List Char, headNotSpace (squeezeGo true s) = true := by
  intro s
  induction s with
  | nil => rfl
  | cons c cs ih =>
    cases hc : isPySpace c with
    | true =>
      rw [squeezeGo_space_t hc]
      exact ih
    | false =>
      rw [squeezeGo_nonspace hc]
      simp [headNotSpace, hc]

theorem noDouble_cons_of {a : Char} {l : List Char} (ha : noDouble l = true)
    (h : ∀ b r, l = b :: r → (isPySpace a && isPySpace b) = false) :
    noDouble (a :: l) = true := by
  cases l with
  | nil => rfl
  | cons b r =>
    simp only [noDouble, Bool.and_eq_true]
    exact ⟨by simp [h b r rfl], ha⟩

theorem noDouble_tail {a : Char} {l : List Char} (h : noDouble (a :: l) = true) :
    noDouble l = true := by
  cases l with
  | nil => rfl
  | cons b r =>
    simp only [noDouble, Bool.and_eq_true] at h
    exact h.2

theorem squeezeGo_noDouble : ∀ (s : List Char) (b : Bool), noDouble (squeezeGo b s) = true := by
  intro s
  induction s with
  | nil => intro b; rfl
  | cons c cs ih =>
    intro b
    cases hc : isPySpace c with
    | true =>
      cases b with
      | true =>
        rw [squeezeGo_space_t hc]
        exact ih true
      | false =>
        rw [squeezeGo_space_f hc]
        apply noDouble_cons_of (ih true)
        intro b' r' heq
        have hh := squeezeGo_headNotSpace cs
        rw [heq] at hh
        simp only [headNotSpace, Bool.not_eq_true'] at hh
        simp [hh]
    | false =>
      rw [squeezeGo_nonspace hc]
      apply noDouble_cons_of (ih false)
      intro b' r' _
      simp [hc]

/-- A normalized list (all whitespace is `' '`, no adjacent whitespace)
is a fixed point of the whitespace squeezer. -/
theorem squeezeGo_fix : ∀ l : List Char, l.all okChar = true → noDouble l = true →
    squeezeGo false l = l ∧ (headNotSpace l = true → squeezeGo true l = l) := by
  intro l
  induction l with
  | nil => exact fun _ _ => ⟨rfl, fun _ => rfl⟩
  | cons c cs ih =>
    intro hok hnd
    rw [List.all_cons, Bool.and_eq_true] at hok
    obtain ⟨hokc, hokcs⟩ := hok
    have ihcs := ih hokcs (noDouble_tail hnd)
    cases hc : isPySpace c with
    | true =>
      have hcsp : c = ' ' := by
        simp only [okChar, hc, Bool.not_true, Bool.false_or, beq_iff_eq] at hokc
        exact hokc
      have hhead : headNotSpace cs = true := by
        cases cs with
        | nil => rfl
        | cons d r =>
          simp only [noDouble, Bool.and_eq_true, Bool.not_eq_true', Bool.and_eq_false_iff] at hnd
          rcases hnd.1 with h1 | h1
          · rw [hc] at h1; cases h1
          · simp [headNotSpace, h1]
      constructor
      · rw [squeezeGo_space_f hc, ihcs.2 hhead, hcsp]
      · intro hh
        simp [headNotSpace, hc] at hh
    | false =>
      constructor
      · rw [squeezeGo_nonspace hc, ihcs.1]
      · intro _
        rw [squeezeGo_nonspace hc, ihcs.1]

theorem pstrip_sublist (l : List Char) : List.Sublist (pstrip l) l := by
  have h1 : List.Sublist (lstripL l) l := List.dropWhile_sublist isPySpace
  have h2 : List.Sublist (rstripL (lstripL l)) (lstripL l) := by
    have h3 := (List.dropWhile_sublist (l := (lstripL l).reverse) isPySpace).reverse
    rwa [List.reverse_reverse] at h3
  exact h2.trans h1

theorem all_ok_pstrip {l : List Char} (h : l.all okChar = true) :
    (pstrip l).all okChar = true := by
  rw [List.all_eq_true] at h ⊢
  exact fun c hc => h c ((pstrip_sublist l).subset hc)

theorem noDouble_dropWhile {l : List Char} (h : noDouble l = true) :
    noDouble (l.dropWhile isPySpace) = true := by
  induction l with
  | nil => exact h
  | cons c cs ih =>
    rw [List.dropWhile_cons]
    cases hc : isPySpace c with
    | true =>
      rw [if_pos rfl]
      exact ih (noDouble_tail h)
    | false =>
      rw [if_neg (by simp)]
      exact h

theorem noDouble_append_left : ∀ {u v : List Char}, noDouble (u ++ v) = true →
    noDouble u = true := by
  intro u
  induction u with
  | nil => intro v _; rfl
  | cons a u' ih =>
    intro v h
    cases u' with
    | nil => rfl
    | cons b u'' =>
      simp only [List.cons_append, noDouble, Bool.and_eq_true] at h ⊢
      exact ⟨h.1, ih h.2⟩

theorem noDouble_pstrip {l : List Char} (h : noDouble l = true) :
    noDouble (pstrip l) = true := by
  have h1 : noDouble (lstripL l) = true := noDouble_dropWhile h
  obtain ⟨hdec, _⟩ := rstrip_decomp (lstripL l)
  rw [hdec] at h1
  exact noDouble_append_left h1

theorem dropWhile_head_not {l r : List Char} {c : Char}
    (h : l.dropWhile isPySpace = c :: r) : isPySpace c = false := by
  induction l with
  | nil => simp at h
  | cons x xs ih =>
    rw [List.dropWhile_cons] at h
    by_cases hx : isPySpace x = true
    · rw [if_pos hx] at h
      exact ih h
    · rw [if_neg hx] at h
      injection h with h1 _
      subst h1
      simpa using hx

theorem rstripL_head {v : List Char} {c : Char} {r : List Char} (h : rstripL v = c :: r) :
    ∃ u, v = c :: u := by
  obtain ⟨hdec, _⟩ := rstrip_decomp v
  rw [h] at hdec
  exact ⟨r ++ (v.reverse.takeWhile isPySpace).reverse, hdec⟩

theorem pstrip_head? {l : List Char} {c : Char} (h : (pstrip l).head? = some c) :
    isPySpace c = false := by
  cases hp : pstrip l with
  | nil => rw [hp] at h; exact absurd h (by simp)
  | cons c' r =>
    rw [hp] at h
    have hcc : c' = c := by simpa using h
    subst hcc
    obtain ⟨u, hv⟩ := rstripL_head (hp : rstripL (lstripL l) = c' :: r)
    exact dropWhile_head_not hv

theorem pstrip_getLast? {l : List Char} {c : Char} (h : (pstrip l).getLast? = some c) :
    isPySpace c = false := by
  rw [show pstrip l = ((lstripL l).reverse.dropWhile isPySpace).reverse from rfl,
    List.getLast?_reverse] at h
  cases hd : (lstripL l).reverse.dropWhile isPySpace with
  | nil => rw [hd] at h; exact absurd h (by simp)
  | cons c' r =>
    rw [hd] at h
    have hcc : c' = c := by simpa using h
    subst hcc
    exact dropWhile_head_not hd

theorem rstripL_idem (l : List Char) : rstripL (rstripL l) = rstripL l := by
  unfold rstripL
  rw [List.reverse_reverse, List.dropWhile_idempotent]

theorem pstrip_idem (l : List Char) : pstrip (pstrip l) = pstrip l := by
  have hl : lstripL (pstrip l) = pstrip l := by
    cases hp : pstrip l with
    | nil => rfl
    | cons c r =>
      have hc : isPySpace c = false := pstrip_head? (by rw [hp]; rfl)
      show (c :: r).dropWhile isPySpace = c :: r
      rw [List.dropWhile_cons, if_neg (by simp [hc])]
  show rstripL (lstripL (pstrip l)) = pstrip l
  rw [hl]
  exact rstripL_idem (lstripL l)

theorem findDangerous_none {q : List Char} (h : ¬ hasForbidden q) : findDangerous q = none := by
  have hf : DANGEROUS_KEYWORDS.find? (fun p => searchKeyword p q) = none :=
    List.find?_eq_none.mpr fun p hp hsp => h ⟨p, hp, hsp⟩
  simp [findDangerous, hf]

theorem findDangerous_of_forbidden {q : List Char} (h : hasForbidden q) :
    ∃ p ∈ DANGEROUS_KEYWORDS, searchKeyword p q = true
      ∧ findDangerous q = some (keywordName p) := by
  cases hf : DANGEROUS_KEYWORDS.find? (fun p => searchKeyword p q) with
  | none =>
    obtain ⟨p, hp, hsp⟩ := h
    exact absurd hsp (List.find?_eq_none.mp hf p hp)
  | some q₀ =>
    have hq₀ : searchKeyword q₀ q = true := by
      have h₀ := List.find?_some hf
      simpa using h₀
    exact ⟨q₀, List.mem_of_find?_eq_some hf, hq₀, by simp [findDangerous, hf]⟩

/-! ## Claims -/

/-- C1: `is_safe_query` applies its rules in order with the first
failing rule winning: empty-after-trim is rejected first; otherwise a
whole-word forbidden-operation match is rejected (with its name in the
message) regardless of the `SELECT` shape; otherwise a candidate not
beginning with the token `SELECT` is rejected; otherwise the candidate
is safe. -/
theorem guard_rule_order (s : String) :
    (pstrip s.data = [] → is_safe_query s = (false, "Query cannot be empty"))
    ∧ (pstrip s.data ≠ [] → hasForbidden (pstrip s.data) →
        (is_safe_query s).1 = false
        ∧ ∃ p ∈ DANGEROUS_KEYWORDS, searchKeyword p (pstrip s.data) = true
            ∧ (is_safe_query s).2 = "Query contains forbidden operation: " ++ keywordName p)
    ∧ (pstrip s.data ≠ [] → ¬ hasForbidden (pstrip s.data) →
        startsWithSelect (pstrip s.data) = false →
        is_safe_query s = (false, "Only SELECT queries are allowed"))
    ∧ (pstrip s.data ≠ [] → ¬ hasForbidden (pstrip s.data) →
        startsWithSelect (pstrip s.data) = true →
        is_safe_query s = (true, "Query is safe to execute")) := by
  refine ⟨fun h => by simp [is_safe_query, h], fun hne hforb => ?_,
    fun hne hnf hsel => ?_, fun hne hnf hsel => ?_⟩
  · obtain ⟨p, hp, hsp, hfd⟩ := findDangerous_of_forbidden hforb
    exact ⟨by simp [is_safe_query, hne, hfd], p, hp, hsp, by simp [is_safe_query, hne, hfd]⟩
  · simp [is_safe_query, hne, findDangerous_none hnf, hsel]
  · simp [is_safe_query, hne, findDangerous_none hnf, hsel]

/-- Witness for `guard_rule_order`: the fourth rule at `"SELECT 1"`. -/
theorem guard_rule_order_witness :
    is_safe_query "SELECT 1" = (true, "Query is safe to execute") :=
  (guard_rule_order "SELECT 1").2.2.2 (by decide) (by decide) (by decide)

/-- C3: any candidate containing a forbidden operation as a
case-insensitive whole word anywhere in the string is rejected with a
message naming a matched operation; the three listed inputs are
rejected naming `DROP`, `DELETE` and `UPDATE` respectively. -/
theorem guard_forbidden_anywhere :
    (∀ (s : String) (p : List String), p ∈ DANGEROUS_KEYWORDS →
        searchKeyword p s.data = true →
        (is_safe_query s).1 = false
        ∧ ∃ q ∈ DANGEROUS_KEYWORDS, searchKeyword q s.data = true
            ∧ (is_safe_query s).2 = "Query contains forbidden operation: " ++ keywordName q)
    ∧ is_safe_query "DROP TABLE customers" = (false, "Query contains forbidden operation: DROP")
    ∧ is_safe_query "DELETE FROM orders" = (false, "Query contains forbidden operation: DELETE")
    ∧ is_safe_query "UPDATE x SET y=1" = (false, "Query contains forbidden operation: UPDATE") := by
  refine ⟨?_, by decide, by decide, by decide⟩
  intro s p hp hs
  have hq : searchKeyword p (pstrip s.data) = true := by
    rw [searchKeyword_pstrip hp]
    exact hs
  have hne : pstrip s.data ≠ [] := by
    intro h0
    rw [h0] at hq
    simp [searchKeyword, searchPat] at hq
  obtain ⟨p₀, hp₀, hsp₀, hfd⟩ := findDangerous_of_forbidden ⟨p, hp, hq⟩
  refine ⟨by simp [is_safe_query, hne, hfd], p₀, hp₀, ?_, by simp [is_safe_query, hne, hfd]⟩
  rw [← searchKeyword_pstrip hp₀]
  exact hsp₀

/-- Witness for `guard_forbidden_anywhere` at `"DROP TABLE customers"`
with the pattern `DROP`. -/
theorem guard_forbidden_anywhere_witness :
    (is_safe_query "DROP TABLE customers").1 = false
    ∧ ∃ q ∈ DANGEROUS_KEYWORDS, searchKeyword q "DROP TABLE customers".data = true
        ∧ (is_safe_query "DROP TABLE customers").2
            = "Query contains forbidden operation: " ++ keywordName q :=
  guard_forbidden_anywhere.1 "DROP TABLE customers" ["DROP"] (by decide) (by decide)

/-- C2: `is_safe_query "SELECT updated_at FROM orders"` is safe — the
whole-word search for `UPDATE` does not fire on the substring `update`
inside the identifier `updated_at` (its trailing `\b` fails on the
following `d`). -/
theorem guard_word_boundary :
    is_safe_query "SELECT updated_at FROM orders" = (true, "Query is safe to execute")
    ∧ searchKeyword ["UPDATE"] "SELECT updated_at FROM orders".data = false := by
  decide

/-- C4: a valid `SELECT` statement followed by a semicolon and a second
statement that contains no forbidden-operation keyword is classified
safe — the guard does not reject multi-statement payloads. -/
theorem guard_multi_statement_gap :
    (is_safe_query "SELECT id FROM customers").1 = true
    ∧ findDangerous "SELECT name FROM orders".data = none
    ∧ is_safe_query ("SELECT id FROM customers" ++ ";" ++ " SELECT name FROM orders")
        = (true, "Query is safe to execute") := by
  decide

/-- C5 counterexample: on the all-whitespace query the guard rejects,
but the reason string is not `"empty query"` (it is
`"Query cannot be empty"`). -/
theorem guard_empty_reason_counterexample :
    (is_safe_query "   ").1 = false ∧ (is_safe_query "   ").2 ≠ "empty query" := by
  decide

/-- C5 (amended): every candidate whose trimmed form is empty is
rejected with the reason `"Query cannot be empty"`. -/
theorem guard_empty_rejected (s : String) (h : pstrip s.data = []) :
    is_safe_query s = (false, "Query cannot be empty") := by
  simp [is_safe_query, h]

/-- Witness for `guard_empty_rejected` at the input `"   "`. -/
theorem guard_empty_rejected_witness :
    is_safe_query "   " = (false, "Query cannot be empty") :=
  guard_empty_rejected "   " (by decide)

/-- C6 counterexample: a safe verdict carries a non-empty message. -/
theorem guard_safe_reason_counterexample :
    (is_safe_query "SELECT 1").1 = true ∧ (is_safe_query "SELECT 1").2 ≠ "" := by
  decide

/-- C6 (amended): every candidate classified safe gets the one fixed
(non-empty) message `"Query is safe to execute"`. -/
theorem guard_safe_reason_constant (s : String) (h : (is_safe_query s).1 = true) :
    (is_safe_query s).2 = "Query is safe to execute" := by
  by_cases h1 : pstrip s.data = []
  · simp [is_safe_query, h1] at h
  · cases hf : findDangerous (pstrip s.data) with
    | some kw => simp [is_safe_query, h1, hf] at h
    | none =>
      by_cases h2 : startsWithSelect (pstrip s.data)
      · simp [is_safe_query, h1, hf, h2]
      · simp [is_safe_query, h1, hf, h2] at h

/-- Witness for `guard_safe_reason_constant` at the input `"SELECT 1"`. -/
theorem guard_safe_reason_constant_witness :
    (is_safe_query "SELECT 1").2 = "Query is safe to execute" :=
  guard_safe_reason_constant "SELECT 1" (by decide)

/-- C7 counterexample: an input with zero parseable table segments does
not make the load fail — it returns successfully with no documents,
leaving the index unchanged (and no `SchemaLoadError` exists in the
code). -/
theorem load_zero_segments_counterexample :
    parseTables "no tables here" = []
    ∧ load_schema_from_file (some "no tables here") = Except.ok [] :=
  ⟨rfl, rfl⟩

/-- C7 (amended): the load raises an error (`FileNotFoundError`)
exactly when the source is unreadable; any readable content — in
particular one with zero parseable table segments — loads without
error, adding nothing in the zero-segment case. -/
theorem load_error_only_unreadable :
    (∀ c : String, parseTables c = [] → load_schema_from_file (some c) = Except.ok [])
    ∧ (∀ c : String, load_schema_from_file (some c) = Except.ok (parseTables c))
    ∧ load_schema_from_file none = Except.error "FileNotFoundError" := by
  refine ⟨fun c h => ?_, fun c => rfl, rfl⟩
  simp [load_schema_from_file, h]

/-- Witness for `load_error_only_unreadable` at a zero-segment input. -/
theorem load_error_only_unreadable_witness :
    load_schema_from_file (some "no tables here") = Except.ok [] :=
  load_error_only_unreadable.1 "no tables here" rfl

/-- C8: retrieval over a loaded index with `N` documents returns
exactly `min topK N` results for every `topK` whose ranking is a
reordering of the collection, and on an empty index it returns the
empty list rather than an error. -/
theorem retrieval_bound (docs : List SchemaDoc)
    (rank : String → List SchemaDoc → List SchemaDoc) (query : String) (topK : Nat)
    (h : (rank query docs).length = docs.length) :
    (retrieve_relevant_schema docs rank query topK).length = min topK docs.length
    ∧ (docs = [] → retrieve_relevant_schema docs rank query topK = []) := by
  constructor
  · simp only [retrieve_relevant_schema, collection_query, List.length_map,
      List.length_take, h, pyOrNat]
    split <;> omega
  · intro hd
    subst hd
    have hr : rank query [] = [] := List.eq_nil_of_length_eq_zero (by simpa using h)
    simp [retrieve_relevant_schema, collection_query, hr]

/-- Witness for `retrieval_bound`: two documents, identity ranking,
`topK = 5` yields `min 5 2 = 2` results. -/
theorem retrieval_bound_witness :
    (retrieve_relevant_schema
        [⟨"table_a_0", "CREATE TABLE a (x INT)", "a"⟩,
         ⟨"table_b_1", "CREATE TABLE b (y INT)", "b"⟩]
        (fun _ l => l) "customers" 5).length = min 5 2 :=
  (retrieval_bound _ _ _ _ rfl).1

/-- C9 counterexample: a segment whose table name cannot be parsed (the
first line holds nothing after `CREATE TABLE`) is indexed under the id
`"table__0"`, not under the fallback id `"table_unknown_0"`. -/
theorem segments_fallback_id_counterexample :
    (parseTables "CREATE TABLE\n(id INT)").map SchemaDoc.id = ["table__0"]
    ∧ ("table__0" : String) ≠ "table_unknown_0" := by
  decide

/-- C9 (amended): no table segment is ever dropped — the load indexes
exactly one document per segment, under an id of the shape
`"table_<name>_<position>"` where the extracted name may be empty;
there is no `"table_unknown"` fallback. -/
theorem segments_always_indexed :
    (∀ content : String,
        (parseTables content).length =
          ((pySplit "CREATE TABLE".data content.data).drop 1).length)
    ∧ (∀ content : String, ∀ d ∈ parseTables content,
        ∃ nm : String, ∃ i : Nat, d.id = "table_" ++ nm ++ "_" ++ toString i) := by
  constructor
  · intro content
    simp [parseTables]
  · intro content d hd
    simp only [parseTables, List.mem_map] at hd
    obtain ⟨p, hp, rfl⟩ := hd
    exact ⟨⟨extractTableName ("CREATE TABLE".data ++ p.2)⟩, p.1, rfl⟩

/-- Witness for `segments_always_indexed` at a one-table schema. -/
theorem segments_always_indexed_witness :
    ∃ nm : String, ∃ i : Nat,
      (SchemaDoc.mk "table_customers_0" "CREATE TABLE customers (id INT);" "customers").id
        = "table_" ++ nm ++ "_" ++ toString i :=
  segments_always_indexed.2 "CREATE TABLE customers (id INT);"
    ⟨"table_customers_0", "CREATE TABLE customers (id INT);", "customers"⟩ (by decide)

/-- C10: `sanitize_query` is idempotent, and its output has no leading
or trailing whitespace and no run of two or more consecutive
whitespace characters. -/
theorem sanitize_idempotent (s : String) :
    sanitize_query (sanitize_query s) = sanitize_query s
    ∧ noDouble (sanitize_query s).data = true
    ∧ (∀ c, (sanitize_query s).data.head? = some c → isPySpace c = false)
    ∧ (∀ c, (sanitize_query s).data.getLast? = some c → isPySpace c = false) := by
  have hok : (pstrip (squeezeGo false s.data)).all okChar = true :=
    all_ok_pstrip (squeezeGo_all_ok s.data false)
  have hnd : noDouble (pstrip (squeezeGo false s.data)) = true :=
    noDouble_pstrip (squeezeGo_noDouble s.data false)
  refine ⟨?_, hnd, fun c hc => pstrip_head? hc, fun c hc => pstrip_getLast? hc⟩
  show (⟨pstrip (squeezeGo false (pstrip (squeezeGo false s.data)))⟩ : String)
      = ⟨pstrip (squeezeGo false s.data)⟩
  rw [(squeezeGo_fix _ hok hnd).1, pstrip_idem]

/-- Witness for `sanitize_idempotent` at `" a  b "` (which sanitizes
to `"a b"`): its first and last characters are not whitespace. -/
theorem sanitize_idempotent_witness :
    isPySpace 'a' = false ∧ isPySpace 'b' = false :=
  ⟨(sanitize_idempotent " a  b ").2.2.1 'a' rfl,
   (sanitize_idempotent " a  b ").2.2.2 'b' rfl⟩
